import Mathlib

/-!
DNAengine: transcription and ambiguity expansion.

A shallow embedding of `src/main.cpp`.

* `std::string` is a `List Char` (one `Char` for each `char` of the string),
  `std::vector<std::string>` a `List (List Char)`; `push_back` appends at the
  end, `pop_back` is `List.dropLast`.
* The two `const std::unordered_map` tables are association lists holding the
  initialiser lists of the source in the same order; `find` is `List.lookup`
  (the keys of each table are pairwise distinct, so the first match is the
  only match).
* `generateAllRNA` mutates `current` and `results` through references; here it
  takes both and returns both.
* `std::istringstream` is the list of unread characters with its `eofbit` and
  `failbit`; `std::getline` and `stream >> char` are functions on that state.
* A thrown `std::runtime_error` is `Except.error` with the message.
-/

namespace DNAengine

/-- The source's `enum class StrandLogic`. -/
inductive StrandLogic where
  | CodingStrand
  | TemplateStrand
  deriving DecidableEq, Repr

/-- The source's `TemplateStrandMap` (main.cpp lines 16-21). -/
def TemplateStrandMap : List (Char × Char) :=
  [('A', 'U'), ('T', 'A'), ('C', 'G'), ('G', 'C'),
   ('R', 'Y'), ('Y', 'R'), ('S', 'S'), ('W', 'W'),
   ('K', 'M'), ('M', 'K'), ('B', 'V'), ('D', 'H'),
   ('H', 'D'), ('V', 'B'), ('N', 'N')]

/-- The source's `AmbiguousBasesRNA` (main.cpp lines 23-29). -/
def AmbiguousBasesRNA : List (Char × List Char) :=
  [('A', ['A']), ('U', ['U']), ('C', ['C']), ('G', ['G']),
   ('R', ['A', 'G']), ('Y', ['C', 'U']), ('S', ['G', 'C']), ('W', ['A', 'U']),
   ('K', ['G', 'U']), ('M', ['A', 'C']), ('B', ['C', 'G', 'U']),
   ('D', ['A', 'G', 'U']), ('H', ['A', 'C', 'U']), ('V', ['A', 'C', 'G']),
   ('N', ['A', 'U', 'C', 'G'])]

/-- The source's `generateAllRNA` (main.cpp lines 32-51).  The pair returned is
the value of `current` and of `results` when the call returns.  The source
reads `rna[index]` whenever `index != rna.size()`, which is only defined for
`index < rna.size()`; the bound `h` rules the other calls out. -/
def generateAllRNA (rna : List Char) (current : List Char) (index : Nat)
    (h : index ≤ rna.length) (results : List (List Char)) :
    List Char × List (List Char) :=
  if heq : index = rna.length then
    (current, results ++ [current])
  else
    have hlt : index < rna.length := Nat.lt_of_le_of_ne h heq
    let base := rna[index]
    match List.lookup base AmbiguousBasesRNA with
    | some bases =>
      bases.foldl
        (fun st rnaBase =>
          let r := generateAllRNA rna (st.1 ++ [rnaBase]) (index + 1) hlt st.2
          (r.1.dropLast, r.2))
        (current, results)
    | none =>
      let r := generateAllRNA rna (current ++ [base]) (index + 1) hlt results
      (r.1.dropLast, r.2)
termination_by rna.length - index

/-- The source's `getAllRNA` (main.cpp lines 54-60). -/
def getAllRNA (rna : List Char) : List (List Char) :=
  (generateAllRNA rna [] 0 (Nat.zero_le _) []).2

/-- The source's `dnaToRna` (main.cpp lines 63-81): the range-for loop is a left
fold whose accumulator is `rna`. -/
def dnaToRna (dna : List Char) (logic : StrandLogic) : List Char :=
  dna.foldl
    (fun rna base =>
      if logic = StrandLogic.CodingStrand then
        rna ++ [if base = 'T' then 'U' else base]
      else if logic = StrandLogic.TemplateStrand then
        match List.lookup base TemplateStrandMap with
        | some r => rna ++ [r]
        | none => rna ++ ['?']
      else rna)
    []

/-- Closed form of the expansion by recursion on the transcript: the leftmost
symbol is the outermost loop.  An auxiliary function of the proofs, shown equal
to `getAllRNA` in `getAllRNA_eq_variants`. -/
def variants : List Char → List (List Char)
  | [] => [[]]
  | c :: rest =>
    match List.lookup c AmbiguousBasesRNA with
    | some bases => bases.flatMap (fun b => (variants rest).map (fun v => b :: v))
    | none => (variants rest).map (fun v => c :: v)

/-- The base complement that claim C16 speaks of: it swaps A with U and C with
G and leaves every other character as it is.  Not a function of the source. -/
def comp (c : Char) : Char :=
  if c = 'A' then 'U'
  else if c = 'U' then 'A'
  else if c = 'C' then 'G'
  else if c = 'G' then 'C'
  else c

/-- The order that claim C12 speaks of, for two variants `u` and `w` of the
transcript `t`: there is a position `p` before which `u` and `w` agree, and at
`p` the base of `u` stands earlier than the base of `w`, a different base, in
the base list of `t[p]`.  Not a function of the source. -/
def BranchOrderLt (t u w : List Char) : Prop :=
  ∃ (p : Nat) (c : Char) (bases : List Char) (a b : Char) (m n : Nat),
    (∀ q, q < p → u[q]? = w[q]?) ∧
    t[p]? = some c ∧ List.lookup c AmbiguousBasesRNA = some bases ∧
    u[p]? = some a ∧ w[p]? = some b ∧
    m < n ∧ bases[m]? = some a ∧ bases[n]? = some b ∧ a ≠ b

/-! The part of the C++ library that `extractDNA` and `getFastaDescription` call.
The program never installs a locale, so character classification is that of the
"C" locale. -/

/-- The library's `std::isspace` in the "C" locale: space, `\t`, `\n`, `\v`, `\f`
and `\r`. -/
def isspace (c : Char) : Bool :=
  c = ' ' || c = '\t' || c = '\n' || c = '\x0b' || c = '\x0c' || c = '\r'

/-- The library's `std::toupper` in the "C" locale: the letters a to z go to A to
Z, every other character is returned as it is.  The source passes a plain
`char`; for a `char` of negative value the library leaves the call undefined,
and the model returns the character as it is, as the usual implementations
do. -/
def toupper (c : Char) : Char :=
  if 97 ≤ c.toNat ∧ c.toNat ≤ 122 then Char.ofNat (c.toNat - 32) else c

/-- A `std::istringstream`: the characters not yet read and the two state bits
that the code depends on. -/
structure IStringStream where
  buf : List Char
  eofbit : Bool
  failbit : Bool
  deriving DecidableEq, Repr

/-- The library's `std::getline(stream, line)`.  On a stream that is not good
the call sets `failbit` and leaves `line` alone.  Otherwise it moves characters
to `line` up to the next `\n`, which it consumes and does not store; when the
characters run out first it sets `eofbit`, and `failbit` too when it has
extracted nothing. -/
def getline (stream : IStringStream) (line : List Char) : IStringStream × List Char :=
  if stream.eofbit || stream.failbit then
    ({ stream with failbit := true }, line)
  else
    let taken := stream.buf.takeWhile (fun c => c != '\n')
    match stream.buf.dropWhile (fun c => c != '\n') with
    | [] => ({ buf := [], eofbit := true, failbit := taken.isEmpty }, taken)
    | _ :: rest => ({ stream with buf := rest }, taken)

/-- The library's `stream >> c` for a `char`: leading whitespace is skipped and
the next character is stored.  When there is none, or the stream is not good,
`failbit` is set and nothing is stored (the result is `none`). -/
def extractChar (stream : IStringStream) : IStringStream × Option Char :=
  if stream.eofbit || stream.failbit then
    ({ stream with failbit := true }, none)
  else
    match stream.buf.dropWhile isspace with
    | [] => ({ buf := [], eofbit := true, failbit := true }, none)
    | c :: rest => ({ stream with buf := rest }, some c)

/-- The source's `getFastaDescription` (main.cpp lines 93-103).  `Except.error`
is the `std::runtime_error` thrown, with its message.  `firstChar` is declared
without an initial value, so when `stream >> firstChar` stores nothing the
comparison reads an indeterminate value: the result is then `none`, the code
does not define it. -/
def getFastaDescription (content : List Char) : Option (Except String (List Char)) :=
  let stream : IStringStream := { buf := content, eofbit := false, failbit := false }
  let r := extractChar stream
  match r.2 with
  | none => none
  | some firstChar =>
    if firstChar ≠ '>' then
      some (Except.error "FASTA header should start with '>'")
    else
      let description : List Char := []
      some (Except.ok (getline r.1 description).2)

/-- The `while (std::getline(stream, line))` loop of the source's `extractDNA`
(main.cpp lines 111-117); the inner range-for loop is a left fold whose
accumulator is `sequence`. -/
def extractDNALoop (stream : IStringStream) (line : List Char) (sequence : List Char) :
    List Char :=
  let r := getline stream line
  if hfail : r.1.failbit = true then
    sequence
  else
    have hdec : (getline stream line).1.buf.length < stream.buf.length := by
      have htake := List.takeWhile_append_dropWhile (fun c => c != '\n') stream.buf
      have htl := congrArg List.length htake
      simp only [List.length_append] at htl
      have hgood : ¬(getline stream line).1.failbit = true := hfail
      revert hgood
      unfold getline
      dsimp only
      split
      · simp
      · split
        · rename_i hd
          rw [hd] at htl
          intro hfail
          cases ht : stream.buf.takeWhile (fun c => c != '\n') with
          | nil => simp [ht] at hfail
          | cons x xs => rw [ht] at htl; simp at htl ⊢; omega
        · rename_i hd
          rw [hd] at htl
          intro _
          simp at htl ⊢
          omega
    extractDNALoop r.1 r.2
      (r.2.foldl (fun seq c => if !isspace c then seq ++ [toupper c] else seq) sequence)
termination_by stream.buf.length

/-- The source's `extractDNA` (main.cpp lines 106-119). -/
def extractDNA (content : List Char) : List Char :=
  let stream : IStringStream := { buf := content, eofbit := false, failbit := false }
  let line : List Char := []
  let r := getline stream line
  let sequence : List Char := []
  extractDNALoop r.1 r.2 sequence

/-! The recursion of `generateAllRNA` -/

theorem generateAllRNA_at_end (rna current : List Char) (index : Nat)
    (h : index ≤ rna.length) (results : List (List Char)) (heq : index = rna.length) :
    generateAllRNA rna current index h results = (current, results ++ [current]) := by
  rw [generateAllRNA, dif_pos heq]

theorem generateAllRNA_step (rna current : List Char) (index : Nat)
    (h : index ≤ rna.length) (results : List (List Char)) (hlt : index < rna.length) :
    generateAllRNA rna current index h results =
      match List.lookup rna[index] AmbiguousBasesRNA with
      | some bases =>
        bases.foldl
          (fun st rnaBase =>
            let r := generateAllRNA rna (st.1 ++ [rnaBase]) (index + 1) hlt st.2
            (r.1.dropLast, r.2))
          (current, results)
      | none =>
        let r := generateAllRNA rna (current ++ [rna[index]]) (index + 1) hlt results
        (r.1.dropLast, r.2) := by
  rw [generateAllRNA, dif_neg (Nat.ne_of_lt hlt)]

/-- The branching loop, given what each recursive call does. -/
theorem branch_loop (g : List Char → List (List Char) → List Char × List (List Char))
    (tails : List (List Char))
    (hg : ∀ cur res, g cur res = (cur, res ++ tails.map (fun v => cur ++ v)))
    (bases : List Char) (current : List Char) (results : List (List Char)) :
    bases.foldl (fun st rnaBase =>
        let r := g (st.1 ++ [rnaBase]) st.2
        (r.1.dropLast, r.2)) (current, results) =
      (current, results ++
        bases.flatMap (fun b => tails.map (fun v => current ++ b :: v))) := by
  induction bases generalizing results with
  | nil => simp
  | cons b bs ih =>
    rw [List.foldl_cons]
    dsimp only
    rw [hg (current ++ [b]) results, List.dropLast_concat, ih]
    simp [List.append_assoc]

/-- What a call of `generateAllRNA` does: `current` is restored, and `results`
gains, in order, `current` extended by each expansion of the rest of `rna`. -/
theorem generateAllRNA_eq (rna : List Char) :
    ∀ (n index : Nat) (h : index ≤ rna.length), rna.length - index = n →
      ∀ (current : List Char) (results : List (List Char)),
        generateAllRNA rna current index h results =
          (current, results ++ (variants (rna.drop index)).map (fun v => current ++ v)) := by
  intro n
  induction n with
  | zero =>
    intro index h hn current results
    have heq : index = rna.length := by omega
    rw [generateAllRNA_at_end _ _ _ _ _ heq]
    subst heq
    simp [variants]
  | succ n ih =>
    intro index h hn current results
    have hlt : index < rna.length := by omega
    rw [generateAllRNA_step _ _ _ _ _ hlt, List.drop_eq_getElem_cons hlt]
    have hrec := ih (index + 1) hlt (by omega)
    cases hl : List.lookup rna[index] AmbiguousBasesRNA with
    | none =>
      simp only [variants, hl, hrec, List.dropLast_concat, List.map_map]
      simp [Function.comp_def]
    | some bases =>
      simp only [variants, hl]
      rw [branch_loop (fun cur res => generateAllRNA rna cur (index + 1) hlt res)
        (variants (rna.drop (index + 1))) (fun cur res => hrec cur res)]
      simp [List.map_flatMap, List.map_map, Function.comp_def]

theorem getAllRNA_eq_variants (rna : List Char) : getAllRNA rna = variants rna := by
  simp [getAllRNA, generateAllRNA_eq rna rna.length 0 (Nat.zero_le _) rfl]

/-! Facts about the tables -/

theorem mem_of_lookup_eq_some {β : Type} (c : Char) (b : β) :
    ∀ (l : List (Char × β)), List.lookup c l = some b → (c, b) ∈ l := by
  intro l
  induction l with
  | nil => intro h; simp at h
  | cons p ps ih =>
    intro h
    obtain ⟨k, x⟩ := p
    by_cases hk : c = k
    · subst hk
      simp [List.lookup] at h
      simp [h]
    · have hne : (c == k) = false := by simpa using hk
      rw [List.lookup, hne] at h
      exact List.mem_cons_of_mem _ (ih h)

theorem bases_ne_nil (c : Char) (bases : List Char)
    (h : List.lookup c AmbiguousBasesRNA = some bases) : bases ≠ [] := by
  have hall : ∀ p ∈ AmbiguousBasesRNA, p.2 ≠ [] := by decide
  exact hall _ (mem_of_lookup_eq_some c bases _ h)

theorem lookup_concrete_base (c : Char) (h : c = 'A' ∨ c = 'U' ∨ c = 'C' ∨ c = 'G') :
    List.lookup c AmbiguousBasesRNA = some [c] := by
  rcases h with h | h | h | h <;> subst h <;> decide

/-! Properties of the closed form -/

theorem mem_variants_cons_some (c : Char) (rest : List Char) (bases : List Char)
    (h : List.lookup c AmbiguousBasesRNA = some bases) (v : List Char) :
    v ∈ variants (c :: rest) ↔ ∃ b ∈ bases, ∃ w ∈ variants rest, v = b :: w := by
  simp only [variants, h, List.mem_flatMap, List.mem_map]
  constructor
  · rintro ⟨b, hb, w, hw, rfl⟩
    exact ⟨b, hb, w, hw, rfl⟩
  · rintro ⟨b, hb, w, hw, rfl⟩
    exact ⟨b, hb, w, hw, rfl⟩

theorem mem_variants_cons_none (c : Char) (rest : List Char)
    (h : List.lookup c AmbiguousBasesRNA = none) (v : List Char) :
    v ∈ variants (c :: rest) ↔ ∃ w ∈ variants rest, v = c :: w := by
  simp only [variants, h, List.mem_map]
  constructor
  · rintro ⟨w, hw, rfl⟩
    exact ⟨w, hw, rfl⟩
  · rintro ⟨w, hw, rfl⟩
    exact ⟨w, hw, rfl⟩

theorem variants_length_of_mem (t : List Char) :
    ∀ v ∈ variants t, v.length = t.length := by
  induction t with
  | nil => intro v hv; simp [variants] at hv; simp [hv]
  | cons c rest ih =>
    intro v hv
    cases hl : List.lookup c AmbiguousBasesRNA with
    | none =>
      obtain ⟨w, hw, rfl⟩ := (mem_variants_cons_none c rest hl v).1 hv
      simp [ih w hw]
    | some bases =>
      obtain ⟨b, _, w, hw, rfl⟩ := (mem_variants_cons_some c rest bases hl v).1 hv
      simp [ih w hw]

theorem variants_ne_nil (t : List Char) : variants t ≠ [] := by
  induction t with
  | nil => simp [variants]
  | cons c rest ih =>
    obtain ⟨w, hw⟩ := List.exists_mem_of_ne_nil _ ih
    cases hl : List.lookup c AmbiguousBasesRNA with
    | none =>
      exact List.ne_nil_of_mem ((mem_variants_cons_none c rest hl _).2 ⟨w, hw, rfl⟩)
    | some bases =>
      obtain ⟨b, hb⟩ := List.exists_mem_of_ne_nil _ (bases_ne_nil c bases hl)
      exact List.ne_nil_of_mem
        ((mem_variants_cons_some c rest bases hl _).2 ⟨b, hb, w, hw, rfl⟩)

theorem mem_variants_iff (t : List Char)
    (ht : ∀ c ∈ t, (List.lookup c AmbiguousBasesRNA).isSome) :
    ∀ v : List Char, v ∈ variants t ↔
      v.length = t.length ∧
        ∀ (i : Nat) (hv : i < v.length) (hi : i < t.length),
          ∃ bases, List.lookup t[i] AmbiguousBasesRNA = some bases ∧ v[i] ∈ bases := by
  induction t with
  | nil =>
    intro v
    simp only [variants, List.mem_singleton, List.length_nil, List.length_eq_zero]
    constructor
    · rintro rfl
      exact ⟨rfl, fun i hv _ => absurd hv (Nat.not_lt_zero _)⟩
    · exact fun h => h.1
  | cons c rest ih =>
    intro v
    have hrest : ∀ x ∈ rest, (List.lookup x AmbiguousBasesRNA).isSome :=
      fun x hx => ht x (List.mem_cons_of_mem _ hx)
    obtain ⟨bases, hl⟩ := Option.isSome_iff_exists.1 (ht c (List.mem_cons_self _ _))
    rw [mem_variants_cons_some c rest bases hl]
    constructor
    · rintro ⟨b, hb, w, hw, rfl⟩
      obtain ⟨hlen, hpt⟩ := (ih hrest w).1 hw
      refine ⟨by simp [hlen], ?_⟩
      intro i hv hi
      cases i with
      | zero => exact ⟨bases, hl, hb⟩
      | succ j =>
        simp only [List.getElem_cons_succ]
        exact hpt j (by simpa using hv) (by simpa using hi)
    · rintro ⟨hlen, hpt⟩
      cases v with
      | nil => simp at hlen
      | cons b w =>
        obtain ⟨bases0, hl0, hb0⟩ := hpt 0 (by simp) (by simp)
        simp only [List.getElem_cons_zero] at hl0 hb0
        rw [hl] at hl0
        cases hl0
        refine ⟨b, hb0, w, (ih hrest w).2 ⟨by simpa using hlen, ?_⟩, rfl⟩
        intro i hv hi
        have := hpt (i + 1) (by simpa using hv) (by simpa using hi)
        simpa only [List.getElem_cons_succ] using this

theorem variants_length (t : List Char)
    (ht : ∀ c ∈ t, (List.lookup c AmbiguousBasesRNA).isSome) :
    (variants t).length =
      (t.map (fun c => ((List.lookup c AmbiguousBasesRNA).getD []).length)).prod := by
  induction t with
  | nil => simp [variants]
  | cons c rest ih =>
    have hrest : ∀ x ∈ rest, (List.lookup x AmbiguousBasesRNA).isSome :=
      fun x hx => ht x (List.mem_cons_of_mem _ hx)
    obtain ⟨bases, hl⟩ := Option.isSome_iff_exists.1 (ht c (List.mem_cons_self _ _))
    simp only [variants, hl, List.map_cons, List.prod_cons, Option.getD_some,
      List.length_flatMap, List.length_map, ← ih hrest]
    simp [Function.comp_def]

theorem variants_concrete (t : List Char)
    (ht : ∀ c ∈ t, c = 'A' ∨ c = 'U' ∨ c = 'C' ∨ c = 'G') : variants t = [t] := by
  induction t with
  | nil => simp [variants]
  | cons c rest ih =>
    have hrest := ih (fun x hx => ht x (List.mem_cons_of_mem _ hx))
    simp [variants, lookup_concrete_base c (ht c (List.mem_cons_self _ _)), hrest]

theorem variants_unmapped_kept (t : List Char) :
    ∀ v ∈ variants t, ∀ (i : Nat) (hi : i < t.length),
      List.lookup t[i] AmbiguousBasesRNA = none → v[i]? = some t[i] := by
  induction t with
  | nil => intro v _ i hi; simp at hi
  | cons c rest ih =>
    intro v hv i hi hnone
    cases hl : List.lookup c AmbiguousBasesRNA with
    | none =>
      obtain ⟨w, hw, rfl⟩ := (mem_variants_cons_none c rest hl v).1 hv
      cases i with
      | zero => simp
      | succ j =>
        simp only [List.getElem_cons_succ] at hnone
        simpa using ih w hw j (by simpa using hi) hnone
    | some bases =>
      obtain ⟨b, _, w, hw, rfl⟩ := (mem_variants_cons_some c rest bases hl v).1 hv
      cases i with
      | zero => simp [hl] at hnone
      | succ j =>
        simp only [List.getElem_cons_succ] at hnone
        simpa using ih w hw j (by simpa using hi) hnone

/-! The transcription loop -/

theorem dnaToRna_nil (logic : StrandLogic) : dnaToRna [] logic = [] := rfl

theorem dnaToRna_coding_snoc (dna : List Char) (base : Char) :
    dnaToRna (dna ++ [base]) StrandLogic.CodingStrand =
      dnaToRna dna StrandLogic.CodingStrand ++ [if base = 'T' then 'U' else base] := by
  simp [dnaToRna, List.foldl_append]

theorem dnaToRna_template_snoc (dna : List Char) (base : Char) :
    dnaToRna (dna ++ [base]) StrandLogic.TemplateStrand =
      dnaToRna dna StrandLogic.TemplateStrand ++
        [(List.lookup base TemplateStrandMap).getD '?'] := by
  simp only [dnaToRna, List.foldl_append, List.foldl_cons, List.foldl_nil]
  cases List.lookup base TemplateStrandMap <;> simp

theorem dnaToRna_coding (dna : List Char) :
    dnaToRna dna StrandLogic.CodingStrand = dna.map (fun b => if b = 'T' then 'U' else b) := by
  induction dna using List.reverseRecOn with
  | nil => rfl
  | append_singleton l a ih => rw [dnaToRna_coding_snoc, ih]; simp

theorem dnaToRna_template (dna : List Char) :
    dnaToRna dna StrandLogic.TemplateStrand =
      dna.map (fun b => (List.lookup b TemplateStrandMap).getD '?') := by
  induction dna using List.reverseRecOn with
  | nil => rfl
  | append_singleton l a ih => rw [dnaToRna_template_snoc, ih]; simp

/-! Ambiguity expansion: claims C1 to C6 -/

/-- C1: for a transcript `t` whose symbols are all keys of `AmbiguousBasesRNA`,
a string `v` occurs in `getAllRNA t` exactly when it has the length of `t` and
at every position its base is listed in `AmbiguousBasesRNA[t[i]]`. -/
theorem getAllRNA_mem_iff (t v : List Char)
    (ht : ∀ c ∈ t, (List.lookup c AmbiguousBasesRNA).isSome) :
    v ∈ getAllRNA t ↔
      v.length = t.length ∧
        ∀ (i : Nat) (hv : i < v.length) (hi : i < t.length),
          ∃ bases, List.lookup t[i] AmbiguousBasesRNA = some bases ∧ v[i] ∈ bases := by
  rw [getAllRNA_eq_variants]
  exact mem_variants_iff t ht v

theorem getAllRNA_mem_iff_witness :
    (∀ c ∈ ['A', 'R'], (List.lookup c AmbiguousBasesRNA).isSome) ∧
      ['A', 'G'] ∈ getAllRNA ['A', 'R'] :=
  ⟨by decide,
    (getAllRNA_mem_iff ['A', 'R'] ['A', 'G'] (by decide)).2
      ⟨rfl, fun i hv _ =>
        match i, hv with
        | 0, _ => ⟨['A'], rfl, by simp⟩
        | 1, _ => ⟨['A', 'G'], rfl, by simp⟩⟩⟩

/-- C2: count law.  For a transcript whose symbols are all keys of
`AmbiguousBasesRNA`, the number of variants is the product over the positions of
the size of the symbol's base list; the empty transcript gives 1. -/
theorem getAllRNA_count (t : List Char)
    (ht : ∀ c ∈ t, (List.lookup c AmbiguousBasesRNA).isSome) :
    (getAllRNA t).length =
        (t.map (fun c => ((List.lookup c AmbiguousBasesRNA).getD []).length)).prod ∧
      (getAllRNA []).length = 1 := by
  rw [getAllRNA_eq_variants, getAllRNA_eq_variants]
  exact ⟨variants_length t ht, rfl⟩

theorem getAllRNA_count_witness :
    (∀ c ∈ ['N', 'A', 'R'], (List.lookup c AmbiguousBasesRNA).isSome) ∧
      (getAllRNA ['N', 'A', 'R']).length = 8 :=
  ⟨by decide, (getAllRNA_count ['N', 'A', 'R'] (by decide)).1.trans (by decide)⟩

/-- C3: Cartesian-product order.  `getAllRNA "" = [""]`; for a key `c` with base
list `bases` and any `rest`, `getAllRNA (c :: rest)` is the concatenation, over
`bases` in order, of `getAllRNA rest` with the base put in front of every
element; `getAllRNA "AUR" = ["AUA", "AUG"]` and `getAllRNA "N" = ["A","U","C","G"]`. -/
theorem getAllRNA_cartesian (c : Char) (bases rest : List Char)
    (hc : List.lookup c AmbiguousBasesRNA = some bases) :
    getAllRNA [] = [[]] ∧
      getAllRNA (c :: rest) =
        bases.flatMap (fun b => (getAllRNA rest).map (fun v => b :: v)) ∧
      getAllRNA ['A', 'U', 'R'] = [['A', 'U', 'A'], ['A', 'U', 'G']] ∧
      getAllRNA ['N'] = [['A'], ['U'], ['C'], ['G']] := by
  simp only [getAllRNA_eq_variants]
  refine ⟨rfl, ?_, by decide, by decide⟩
  simp only [variants, hc]

theorem getAllRNA_cartesian_witness :
    List.lookup 'Y' AmbiguousBasesRNA = some ['C', 'U'] ∧
      getAllRNA ['Y', 'R'] =
        ['C', 'U'].flatMap (fun b => (getAllRNA ['R']).map (fun v => b :: v)) :=
  ⟨by decide, (getAllRNA_cartesian 'Y' ['C', 'U'] ['R'] (by decide)).2.1⟩

/-- C4, as the claim states it, fails: the one-symbol transcript `"?"` holds a
symbol that is not a key of `AmbiguousBasesRNA`, and `getAllRNA "?"` is `["?"]`,
not the empty sequence. -/
theorem getAllRNA_drop_law_fails :
    '?' ∈ ['?'] ∧ List.lookup '?' AmbiguousBasesRNA = none ∧
      getAllRNA ['?'] = [['?']] ∧ getAllRNA ['?'] ≠ [] := by
  refine ⟨by decide, by decide, ?_, ?_⟩ <;>
    simp [getAllRNA, generateAllRNA, AmbiguousBasesRNA, List.lookup]

/-- C4, amended: when the symbol at position `i` of a transcript `t` is not a
key of `AmbiguousBasesRNA`, `getAllRNA t` is not empty and every variant holds
that symbol unchanged at position `i` (the `else` branch pushes the symbol and
recurses once); `getAllRNA "?" = ["?"]`. -/
theorem getAllRNA_unmapped_passthrough (t : List Char) (i : Nat) (hi : i < t.length)
    (hnone : List.lookup t[i] AmbiguousBasesRNA = none) :
    getAllRNA t ≠ [] ∧
      (∀ v ∈ getAllRNA t, v[i]? = some t[i]) ∧
      getAllRNA ['?'] = [['?']] := by
  simp only [getAllRNA_eq_variants]
  exact ⟨variants_ne_nil t, fun v hv => variants_unmapped_kept t v hv i hi hnone,
    by decide⟩

theorem getAllRNA_unmapped_passthrough_witness :
    1 < ['R', '?'].length ∧ List.lookup '?' AmbiguousBasesRNA = none ∧
      getAllRNA ['R', '?'] ≠ [] ∧ (∀ v ∈ getAllRNA ['R', '?'], v[1]? = some '?') :=
  have h := getAllRNA_unmapped_passthrough ['R', '?'] 1 (by decide) (by decide)
  ⟨by decide, by decide, h.1, h.2.1⟩

/-- C5: length law.  Every variant in `getAllRNA t` has the length of `t`, for
any characters in `t`. -/
theorem getAllRNA_length_law (t v : List Char) (hv : v ∈ getAllRNA t) :
    v.length = t.length := by
  rw [getAllRNA_eq_variants] at hv
  exact variants_length_of_mem t v hv

theorem getAllRNA_length_law_witness :
    ['U', '?', 'G'] ∈ getAllRNA ['U', '?', 'R'] ∧
      ['U', '?', 'G'].length = ['U', '?', 'R'].length :=
  have h : ['U', '?', 'G'] ∈ getAllRNA ['U', '?', 'R'] := by
    rw [getAllRNA_eq_variants]; decide
  ⟨h, getAllRNA_length_law ['U', '?', 'R'] ['U', '?', 'G'] h⟩

/-- C6: unambiguous fixed point.  When every symbol of `t` is one of A, U, C, G,
`getAllRNA t` is the one-element list `[t]`. -/
theorem getAllRNA_fixed_point (t : List Char)
    (ht : ∀ c ∈ t, c = 'A' ∨ c = 'U' ∨ c = 'C' ∨ c = 'G') :
    getAllRNA t = [t] := by
  rw [getAllRNA_eq_variants]
  exact variants_concrete t ht

theorem getAllRNA_fixed_point_witness :
    (∀ c ∈ ['G', 'A', 'U', 'C'], c = 'A' ∨ c = 'U' ∨ c = 'C' ∨ c = 'G') ∧
      getAllRNA ['G', 'A', 'U', 'C'] = [['G', 'A', 'U', 'C']] :=
  ⟨by decide, getAllRNA_fixed_point ['G', 'A', 'U', 'C'] (by decide)⟩

/-! Transcription: claims C7 to C10 -/

/-- C7: coding-strand rule.  At every position `i` of `dna` (any characters),
`dnaToRna dna CodingStrand` holds 'U' when `dna[i]` is 'T' and `dna[i]`
otherwise; `dnaToRna "ATCG" CodingStrand = "AUCG"`. -/
theorem dnaToRna_coding_rule (dna : List Char) (i : Nat) (hi : i < dna.length) :
    (dnaToRna dna StrandLogic.CodingStrand)[i]? =
        some (if dna[i] = 'T' then 'U' else dna[i]) ∧
      dnaToRna ['A', 'T', 'C', 'G'] StrandLogic.CodingStrand = ['A', 'U', 'C', 'G'] := by
  refine ⟨?_, by decide⟩
  rw [dnaToRna_coding, List.getElem?_map, List.getElem?_eq_getElem hi]
  rfl

theorem dnaToRna_coding_rule_witness :
    1 < ['G', 'T', 'x'].length ∧
      (dnaToRna ['G', 'T', 'x'] StrandLogic.CodingStrand)[1]? = some 'U' :=
  ⟨by decide, (dnaToRna_coding_rule ['G', 'T', 'x'] 1 (by decide)).1⟩

/-- C8: template-strand rule.  At every position `i` of `dna` (any characters),
`dnaToRna dna TemplateStrand` holds `TemplateStrandMap[dna[i]]` when `dna[i]` is
a key of `TemplateStrandMap` and the placeholder '?' otherwise;
`dnaToRna "ATCG" TemplateStrand = "UAGC"` and `dnaToRna "ATN" TemplateStrand = "UAN"`. -/
theorem dnaToRna_template_rule (dna : List Char) (i : Nat) (hi : i < dna.length) :
    (∀ r, List.lookup dna[i] TemplateStrandMap = some r →
        (dnaToRna dna StrandLogic.TemplateStrand)[i]? = some r) ∧
      (List.lookup dna[i] TemplateStrandMap = none →
        (dnaToRna dna StrandLogic.TemplateStrand)[i]? = some '?') ∧
      dnaToRna ['A', 'T', 'C', 'G'] StrandLogic.TemplateStrand = ['U', 'A', 'G', 'C'] ∧
      dnaToRna ['A', 'T', 'N'] StrandLogic.TemplateStrand = ['U', 'A', 'N'] := by
  have hget : (dnaToRna dna StrandLogic.TemplateStrand)[i]? =
      some ((List.lookup dna[i] TemplateStrandMap).getD '?') := by
    rw [dnaToRna_template, List.getElem?_map, List.getElem?_eq_getElem hi]
    rfl
  refine ⟨?_, ?_, by decide, by decide⟩
  · intro r hr
    rw [hget, hr]
    rfl
  · intro hnone
    rw [hget, hnone]
    rfl

theorem dnaToRna_template_rule_witness :
    1 < ['K', 'x'].length ∧
      List.lookup 'K' TemplateStrandMap = some 'M' ∧
      List.lookup 'x' TemplateStrandMap = none ∧
      (dnaToRna ['K', 'x'] StrandLogic.TemplateStrand)[0]? = some 'M' ∧
      (dnaToRna ['K', 'x'] StrandLogic.TemplateStrand)[1]? = some '?' :=
  ⟨by decide, by decide, by decide,
    (dnaToRna_template_rule ['K', 'x'] 0 (by decide)).1 'M' (by decide),
    (dnaToRna_template_rule ['K', 'x'] 1 (by decide)).2.1 (by decide)⟩

/-- C9: transcription is total and length-preserving.  For every input (any
characters) and both `StrandLogic` values, `dnaToRna dna logic` is a string of
length `|dna|`. -/
theorem dnaToRna_length (dna : List Char) (logic : StrandLogic) :
    (dnaToRna dna logic).length = dna.length := by
  cases logic with
  | CodingStrand => rw [dnaToRna_coding, List.length_map]
  | TemplateStrand => rw [dnaToRna_template, List.length_map]

/-- C10: transcript invariant.  When every character of `dna` belongs to the DNA
alphabet {A,T,C,G,R,Y,S,W,K,M,B,D,H,V,N}, every symbol of `dnaToRna dna logic`,
for both `StrandLogic` values, is a key of `AmbiguousBasesRNA`; in particular it
is neither 'T' nor '?'. -/
theorem dnaToRna_symbols_mapped (dna : List Char) (logic : StrandLogic)
    (hdna : ∀ c ∈ dna,
      c ∈ ['A', 'T', 'C', 'G', 'R', 'Y', 'S', 'W', 'K', 'M', 'B', 'D', 'H', 'V', 'N'])
    (s : Char) (hs : s ∈ dnaToRna dna logic) :
    (List.lookup s AmbiguousBasesRNA).isSome ∧ s ≠ 'T' ∧ s ≠ '?' := by
  cases logic with
  | CodingStrand =>
    have hall : ∀ c ∈ ['A', 'T', 'C', 'G', 'R', 'Y', 'S', 'W', 'K', 'M', 'B', 'D', 'H', 'V', 'N'],
        (List.lookup (if c = 'T' then 'U' else c) AmbiguousBasesRNA).isSome ∧
          (if c = 'T' then 'U' else c) ≠ 'T' ∧ (if c = 'T' then 'U' else c) ≠ '?' := by
      decide
    rw [dnaToRna_coding, List.mem_map] at hs
    obtain ⟨c, hc, rfl⟩ := hs
    exact hall c (hdna c hc)
  | TemplateStrand =>
    have hall : ∀ c ∈ ['A', 'T', 'C', 'G', 'R', 'Y', 'S', 'W', 'K', 'M', 'B', 'D', 'H', 'V', 'N'],
        (List.lookup ((List.lookup c TemplateStrandMap).getD '?') AmbiguousBasesRNA).isSome ∧
          (List.lookup c TemplateStrandMap).getD '?' ≠ 'T' ∧
          (List.lookup c TemplateStrandMap).getD '?' ≠ '?' := by
      decide
    rw [dnaToRna_template, List.mem_map] at hs
    obtain ⟨c, hc, rfl⟩ := hs
    exact hall c (hdna c hc)

theorem dnaToRna_symbols_mapped_witness :
    (∀ c ∈ ['T', 'K', 'N'],
      c ∈ ['A', 'T', 'C', 'G', 'R', 'Y', 'S', 'W', 'K', 'M', 'B', 'D', 'H', 'V', 'N']) ∧
      'M' ∈ dnaToRna ['T', 'K', 'N'] StrandLogic.TemplateStrand ∧
      ((List.lookup 'M' AmbiguousBasesRNA).isSome ∧ 'M' ≠ 'T' ∧ 'M' ≠ '?') :=
  ⟨by decide, by decide,
    dnaToRna_symbols_mapped ['T', 'K', 'N'] StrandLogic.TemplateStrand (by decide) 'M'
      (by decide)⟩

/-! Further properties of the closed form, for claims C11 to C17 -/

theorem variants_length_general (t : List Char) :
    (variants t).length =
      (t.map (fun c => ((List.lookup c AmbiguousBasesRNA).map List.length).getD 1)).prod := by
  induction t with
  | nil => simp [variants]
  | cons c rest ih =>
    cases hl : List.lookup c AmbiguousBasesRNA with
    | none => simp [variants, hl, ih]
    | some bases =>
      simp only [variants, hl, List.map_cons, List.prod_cons, Option.map_some',
        Option.getD_some, List.length_flatMap, List.length_map, ← ih]
      simp [Function.comp_def]

theorem lookup_placeholder : List.lookup '?' AmbiguousBasesRNA = none := by decide

/-- The product of two permutations: permuting the branches of the head symbol
and the expansions of the rest permutes the expansions. -/
theorem flatMap_cons_perm (l₁ l₂ : List Char) (X Y : List (List Char))
    (hl : l₁.Perm l₂) (hX : X.Perm Y) :
    (l₁.flatMap (fun b => X.map (fun v => b :: v))).Perm
      (l₂.flatMap (fun b => Y.map (fun v => b :: v))) :=
  (List.Perm.flatMap_left l₁ (fun b _ => hX.map (fun v => b :: v))).trans
    (List.Perm.flatMap_right (fun b => Y.map (fun v => b :: v)) hl)

theorem strand_tables_dual :
    ∀ d ∈ ['A', 'T', 'C', 'G', 'R', 'Y', 'S', 'W', 'K', 'M', 'B', 'D', 'H', 'V', 'N'],
      ∃ bs bt,
        List.lookup (if d = 'T' then 'U' else d) AmbiguousBasesRNA = some bs ∧
        List.lookup ((List.lookup d TemplateStrandMap).getD '?') AmbiguousBasesRNA = some bt ∧
        bt.Perm (bs.map comp) := by
  have hall :
      ∀ d ∈ ['A', 'T', 'C', 'G', 'R', 'Y', 'S', 'W', 'K', 'M', 'B', 'D', 'H', 'V', 'N'],
        (List.lookup (if d = 'T' then 'U' else d) AmbiguousBasesRNA).isSome ∧
        (List.lookup ((List.lookup d TemplateStrandMap).getD '?') AmbiguousBasesRNA).isSome ∧
        ((List.lookup ((List.lookup d TemplateStrandMap).getD '?') AmbiguousBasesRNA).getD []).Perm
          (((List.lookup (if d = 'T' then 'U' else d) AmbiguousBasesRNA).getD []).map comp) := by
    decide
  intro d hd
  obtain ⟨h1, h2, h3⟩ := hall d hd
  obtain ⟨bs, hbs⟩ := Option.isSome_iff_exists.1 h1
  obtain ⟨bt, hbt⟩ := Option.isSome_iff_exists.1 h2
  rw [hbs, hbt] at h3
  exact ⟨bs, bt, hbs, hbt, h3⟩

theorem variants_strand_dual (dna : List Char)
    (hdna : ∀ c ∈ dna,
      c ∈ ['A', 'T', 'C', 'G', 'R', 'Y', 'S', 'W', 'K', 'M', 'B', 'D', 'H', 'V', 'N']) :
    (variants (dna.map (fun b => (List.lookup b TemplateStrandMap).getD '?'))).Perm
      ((variants (dna.map (fun b => if b = 'T' then 'U' else b))).map (List.map comp)) := by
  induction dna with
  | nil => simp [variants]
  | cons d rest ih =>
    obtain ⟨bs, bt, hbs, hbt, hperm⟩ := strand_tables_dual d (hdna d (List.mem_cons_self _ _))
    have hrest := ih (fun c hc => hdna c (List.mem_cons_of_mem _ hc))
    simp only [List.map_cons, variants, hbs, hbt]
    have hmap :
        (bs.flatMap (fun b =>
          (variants (rest.map (fun b => if b = 'T' then 'U' else b))).map
            (fun v => b :: v))).map (List.map comp) =
        (bs.map comp).flatMap (fun b =>
          ((variants (rest.map (fun b => if b = 'T' then 'U' else b))).map
            (List.map comp)).map (fun v => b :: v)) := by
      simp [List.map_flatMap, List.flatMap_map, List.map_map, Function.comp_def]
    rw [hmap]
    exact flatMap_cons_perm _ _ _ _ hperm hrest

/-! The output order, for claim C12 -/

theorem bases_nodup (c : Char) (bases : List Char)
    (h : List.lookup c AmbiguousBasesRNA = some bases) : bases.Nodup := by
  have hall : ∀ p ∈ AmbiguousBasesRNA, p.2.Nodup := by decide
  exact hall _ (mem_of_lookup_eq_some c bases _ h)

theorem BranchOrderLt.cons_same (t u w : List Char) (c x : Char)
    (h : BranchOrderLt t u w) : BranchOrderLt (c :: t) (x :: u) (x :: w) := by
  obtain ⟨p, d, bases, a, b, m, n, hpre, ht, hl, hu, hw, hmn, hm, hn, hab⟩ := h
  refine ⟨p + 1, d, bases, a, b, m, n, ?_, by simpa using ht, hl, by simpa using hu,
    by simpa using hw, hmn, hm, hn, hab⟩
  intro q hq
  cases q with
  | zero => simp
  | succ r => simpa using hpre r (by omega)

theorem BranchOrderLt.cons_head (rest u w : List Char) (c : Char) (bases : List Char)
    (hl : List.lookup c AmbiguousBasesRNA = some bases) (a b : Char) (m n : Nat)
    (hmn : m < n) (hm : bases[m]? = some a) (hn : bases[n]? = some b) (hab : a ≠ b) :
    BranchOrderLt (c :: rest) (a :: u) (b :: w) :=
  ⟨0, c, bases, a, b, m, n, fun q hq => absurd hq (Nat.not_lt_zero q), by simp, hl,
    by simp, by simp, hmn, hm, hn, hab⟩

theorem nodup_pairwise_positions (l : List Char) (hl : l.Nodup) :
    l.Pairwise (fun a b => ∃ m n : Nat, m < n ∧ l[m]? = some a ∧ l[n]? = some b ∧ a ≠ b) := by
  rw [List.pairwise_iff_getElem]
  intro i j hi hj hij
  refine ⟨i, j, hij, List.getElem?_eq_getElem hi, List.getElem?_eq_getElem hj, ?_⟩
  intro heq
  have := (List.Nodup.getElem_inj_iff hl).1 heq
  omega

theorem variants_pairwise (t : List Char)
    (ht : ∀ c ∈ t, (List.lookup c AmbiguousBasesRNA).isSome) :
    (variants t).Pairwise (BranchOrderLt t) := by
  induction t with
  | nil => simp [variants]
  | cons c rest ih =>
    have hrest := ih (fun x hx => ht x (List.mem_cons_of_mem _ hx))
    obtain ⟨bases, hl⟩ := Option.isSome_iff_exists.1 (ht c (List.mem_cons_self _ _))
    simp only [variants, hl]
    rw [List.pairwise_flatMap]
    constructor
    · intro b _
      rw [List.pairwise_map]
      exact hrest.imp (fun h => BranchOrderLt.cons_same rest _ _ c b h)
    · refine (nodup_pairwise_positions bases (bases_nodup c bases hl)).imp ?_
      rintro a b ⟨m, n, hmn, hm, hn, hab⟩ x hx y hy
      obtain ⟨u, _, rfl⟩ := List.mem_map.1 hx
      obtain ⟨w, _, rfl⟩ := List.mem_map.1 hy
      exact BranchOrderLt.cons_head rest u w c bases hl a b m n hmn hm hn hab

/-! Character classification -/

theorem isspace_newline : isspace '\n' = true := by decide

theorem toupper_class (c : Char) (hc : isspace c = false) :
    isspace (toupper c) = false ∧ (toupper c).isLower = false := by
  by_cases h : 97 ≤ c.toNat ∧ c.toNat ≤ 122
  · have hof : c = Char.ofNat c.toNat := (Char.ofNat_toNat c).symm
    obtain ⟨h1, h2⟩ := h
    generalize c.toNat = k at hof h1 h2
    subst hof
    clear hc
    interval_cases k <;> decide
  · have hup : toupper c = c := by simp only [toupper, if_neg h]
    rw [hup]
    refine ⟨hc, ?_⟩
    simp only [Char.isLower, ge_iff_le, Bool.and_eq_false_imp, decide_eq_true_eq,
      decide_eq_false_iff_not]
    intro h1 h2
    apply h
    exact ⟨h1, h2⟩

/-! The stream reads and the loop of `extractDNA` -/

theorem sequence_loop (line : List Char) :
    ∀ sequence : List Char,
      line.foldl (fun seq c => if !isspace c then seq ++ [toupper c] else seq) sequence =
        sequence ++ (line.filter (fun c => !isspace c)).map toupper := by
  induction line with
  | nil => intro sequence; simp
  | cons c cs ih =>
    intro sequence
    rw [List.foldl_cons, ih]
    cases hc : isspace c <;> simp [hc]

theorem getline_not_good (stream : IStringStream) (line : List Char)
    (h : (stream.eofbit || stream.failbit) = true) :
    getline stream line = ({ stream with failbit := true }, line) := by
  simp only [getline, h, if_true]

theorem getline_at_end (buf line : List Char)
    (h : buf.dropWhile (fun c => c != '\n') = []) :
    getline { buf := buf, eofbit := false, failbit := false } line =
      ({ buf := [], eofbit := true, failbit := buf.isEmpty }, buf) := by
  have htake := List.takeWhile_append_dropWhile (fun c => c != '\n') buf
  rw [h, List.append_nil] at htake
  simp [getline, h, htake]

theorem getline_line (buf line : List Char) (x : Char) (rest : List Char)
    (h : buf.dropWhile (fun c => c != '\n') = x :: rest) :
    getline { buf := buf, eofbit := false, failbit := false } line =
      ({ buf := rest, eofbit := false, failbit := false },
        buf.takeWhile (fun c => c != '\n')) := by
  simp [getline, h]

theorem dropWhile_newline (buf : List Char) (x : Char) (rest : List Char)
    (h : buf.dropWhile (fun c => c != '\n') = x :: rest) :
    x = '\n' ∧ buf = buf.takeWhile (fun c => c != '\n') ++ '\n' :: rest := by
  have hne : buf.dropWhile (fun c => c != '\n') ≠ [] := by rw [h]; simp
  have hx := List.head_dropWhile_not (fun c => c != '\n') buf hne
  simp only [h, List.head_cons, bne_eq_false_iff_eq] at hx
  subst hx
  refine ⟨rfl, ?_⟩
  rw [← h, List.takeWhile_append_dropWhile]

theorem extractDNALoop_unfold (stream : IStringStream) (line sequence : List Char) :
    extractDNALoop stream line sequence =
      if (getline stream line).1.failbit = true then sequence
      else extractDNALoop (getline stream line).1 (getline stream line).2
        ((getline stream line).2.foldl
          (fun seq c => if !isspace c then seq ++ [toupper c] else seq) sequence) := by
  rw [extractDNALoop]
  rfl

theorem extractDNALoop_not_good (stream : IStringStream) (line sequence : List Char)
    (h : (stream.eofbit || stream.failbit) = true) :
    extractDNALoop stream line sequence = sequence := by
  rw [extractDNALoop_unfold, getline_not_good stream line h]
  simp

theorem extractDNALoop_good (n : Nat) :
    ∀ buf : List Char, buf.length ≤ n → ∀ line sequence : List Char,
      extractDNALoop { buf := buf, eofbit := false, failbit := false } line sequence =
        sequence ++ (buf.filter (fun c => !isspace c)).map toupper := by
  induction n with
  | zero =>
    intro buf hlen line sequence
    have hnil : buf = [] := List.length_eq_zero.1 (Nat.le_zero.1 hlen)
    subst hnil
    rw [extractDNALoop_unfold, getline_at_end [] line rfl]
    simp
  | succ n ih =>
    intro buf hlen line sequence
    cases hd : buf.dropWhile (fun c => c != '\n') with
    | nil =>
      rw [extractDNALoop_unfold, getline_at_end buf line hd]
      cases buf with
      | nil => simp
      | cons b bs =>
        simp only [List.isEmpty_cons, Bool.false_eq_true, if_false]
        rw [extractDNALoop_not_good _ _ _ (by simp), sequence_loop]
    | cons x rest =>
      obtain ⟨_, hbuf⟩ := dropWhile_newline buf x rest hd
      have hrest : rest.length ≤ n := by
        have := congrArg List.length hbuf
        simp only [List.length_append, List.length_cons] at this
        omega
      rw [extractDNALoop_unfold, getline_line buf line x rest hd]
      simp only [Bool.false_eq_true, if_false]
      rw [ih rest hrest, sequence_loop]
      conv_rhs => rw [hbuf]
      simp [isspace_newline]

theorem extractDNA_eq (content : List Char) :
    extractDNA content =
      (((content.dropWhile (fun c => c != '\n')).drop 1).filter
        (fun c => !isspace c)).map toupper := by
  unfold extractDNA
  cases hd : content.dropWhile (fun c => c != '\n') with
  | nil =>
    simp only [getline_at_end content [] hd]
    rw [extractDNALoop_not_good _ _ _ (by simp)]
    simp
  | cons x rest =>
    simp only [getline_line content [] x rest hd]
    rw [extractDNALoop_good rest.length rest (Nat.le_refl _)]
    simp

/-! Lines: splitting at the newline -/

theorem flatten_splitOnP (p : Char → Bool) (l : List Char) :
    (l.splitOnP p).flatten = l.filter (fun c => !p c) := by
  induction l with
  | nil => simp
  | cons x xs ih =>
    rw [List.splitOnP_cons]
    cases hx : p x with
    | true => simp [hx, ih]
    | false =>
      simp only [Bool.false_eq_true, if_false]
      cases hs : xs.splitOnP p with
      | nil => exact absurd hs (List.splitOnP_ne_nil p xs)
      | cons h t =>
        rw [hs] at ih
        simp only [List.modifyHead_cons, List.flatten_cons, List.cons_append] at ih ⊢
        simp [hx, ih]

theorem flatten_tail_splitOnP (p : Char → Bool) (l : List Char) :
    (l.splitOnP p).tail.flatten =
      ((l.dropWhile (fun c => !p c)).drop 1).filter (fun c => !p c) := by
  induction l with
  | nil => simp
  | cons x xs ih =>
    rw [List.splitOnP_cons]
    cases hx : p x with
    | true => simp [hx, flatten_splitOnP]
    | false => simp [hx, ih]

theorem lines_after_first (content : List Char) :
    ((content.splitOn '\n').tail.flatten).filter (fun c => !isspace c) =
      ((content.dropWhile (fun c => c != '\n')).drop 1).filter (fun c => !isspace c) := by
  have hfun : (fun c : Char => !(c == '\n')) = (fun c => c != '\n') := rfl
  rw [List.splitOn, flatten_tail_splitOnP, hfun, List.filter_filter]
  congr 1
  funext c
  by_cases hc : c = '\n'
  · subst hc; decide
  · simp [hc]

/-! The header read of `getFastaDescription` -/

theorem extractChar_skip (ws : List Char) (x : Char) (rest : List Char)
    (hws : ∀ c ∈ ws, isspace c = true) (hx : isspace x = false) :
    extractChar { buf := ws ++ x :: rest, eofbit := false, failbit := false } =
      ({ buf := rest, eofbit := false, failbit := false }, some x) := by
  have hdrop : (ws ++ x :: rest).dropWhile isspace = x :: rest := by
    rw [List.dropWhile_append_of_pos hws, List.dropWhile_cons_of_neg (by simp [hx])]
  simp [extractChar, hdrop]

theorem getline_snd (buf line : List Char) :
    (getline { buf := buf, eofbit := false, failbit := false } line).2 =
      buf.takeWhile (fun c => c != '\n') := by
  cases hd : buf.dropWhile (fun c => c != '\n') with
  | nil =>
    have htake := List.takeWhile_append_dropWhile (fun c => c != '\n') buf
    rw [hd, List.append_nil] at htake
    rw [getline_at_end buf line hd, htake]
  | cons x rest => rw [getline_line buf line x rest hd]

theorem getFastaDescription_eq (ws : List Char) (x : Char) (rest : List Char)
    (hws : ∀ c ∈ ws, isspace c = true) (hx : isspace x = false) :
    getFastaDescription (ws ++ x :: rest) =
      if x ≠ '>' then some (Except.error "FASTA header should start with '>'")
      else some (Except.ok (rest.takeWhile (fun c => c != '\n'))) := by
  unfold getFastaDescription
  simp only [extractChar_skip ws x rest hws hx, getline_snd]

/-! Claims C11 to C13 -/

/-- C11, as the claim states it, fails: `"x"` holds a character that is not a
key of `TemplateStrandMap`, its template-strand transcript is `"?"`, and
`getAllRNA "?"` is `["?"]`, not the empty sequence. -/
theorem template_drop_fails :
    'x' ∈ ['x'] ∧ List.lookup 'x' TemplateStrandMap = none ∧
      dnaToRna ['x'] StrandLogic.TemplateStrand = ['?'] ∧
      getAllRNA (dnaToRna ['x'] StrandLogic.TemplateStrand) = [['?']] ∧
      getAllRNA (dnaToRna ['x'] StrandLogic.TemplateStrand) ≠ [] := by
  have ht : dnaToRna ['x'] StrandLogic.TemplateStrand = ['?'] := by decide
  refine ⟨by decide, by decide, ht, ?_, ?_⟩ <;>
    simp [ht, getAllRNA, generateAllRNA, AmbiguousBasesRNA, List.lookup]

/-- C11, amended: when the character at position `i` of `dna` is not a key of
`TemplateStrandMap`, the template-strand transcript holds the placeholder '?'
at `i`; '?' is not a key of `AmbiguousBasesRNA`; and
`getAllRNA (dnaToRna dna TemplateStrand)` is not empty, every variant holding
'?' unchanged at position `i`. -/
theorem template_placeholder_passthrough (dna : List Char) (i : Nat) (hi : i < dna.length)
    (hnone : List.lookup dna[i] TemplateStrandMap = none) :
    (dnaToRna dna StrandLogic.TemplateStrand)[i]? = some '?' ∧
      List.lookup '?' AmbiguousBasesRNA = none ∧
      getAllRNA (dnaToRna dna StrandLogic.TemplateStrand) ≠ [] ∧
      ∀ v ∈ getAllRNA (dnaToRna dna StrandLogic.TemplateStrand), v[i]? = some '?' := by
  have hsym : (dnaToRna dna StrandLogic.TemplateStrand)[i]? = some '?' := by
    rw [dnaToRna_template, List.getElem?_map, List.getElem?_eq_getElem hi]
    simp [hnone]
  refine ⟨hsym, lookup_placeholder, ?_, ?_⟩
  · rw [getAllRNA_eq_variants]
    exact variants_ne_nil _
  · intro v hv
    rw [getAllRNA_eq_variants] at hv
    obtain ⟨hlt, hget⟩ := List.getElem?_eq_some_iff.1 hsym
    have hkept := variants_unmapped_kept _ v hv i hlt (by rw [hget]; exact lookup_placeholder)
    rw [hkept, hget]

theorem template_placeholder_passthrough_witness :
    1 < ['R', 'x'].length ∧ List.lookup 'x' TemplateStrandMap = none ∧
      getAllRNA (dnaToRna ['R', 'x'] StrandLogic.TemplateStrand) ≠ [] ∧
      (∀ v ∈ getAllRNA (dnaToRna ['R', 'x'] StrandLogic.TemplateStrand), v[1]? = some '?') :=
  have h := template_placeholder_passthrough ['R', 'x'] 1 (by decide) (by decide)
  ⟨by decide, by decide, h.2.2.1, h.2.2.2⟩

/-- C12: the rightmost position cycles fastest.  For a transcript `t` whose
symbols are all keys of `AmbiguousBasesRNA`, the variants `u` at output index
`i` and `w` at a later index `j` differ, and at the first position `p` where
they differ the base of `u` stands before the base of `w` in the base list of
`t[p]`. -/
theorem getAllRNA_strictly_ordered (t : List Char)
    (ht : ∀ c ∈ t, (List.lookup c AmbiguousBasesRNA).isSome)
    (i j : Nat) (hij : i < j) (u w : List Char)
    (hu : (getAllRNA t)[i]? = some u) (hw : (getAllRNA t)[j]? = some w) :
    u ≠ w ∧
      ∃ (p : Nat) (c : Char) (bases : List Char) (a b : Char) (m n : Nat),
        (∀ q, q < p → u[q]? = w[q]?) ∧
        t[p]? = some c ∧ List.lookup c AmbiguousBasesRNA = some bases ∧
        u[p]? = some a ∧ w[p]? = some b ∧ a ≠ b ∧
        m < n ∧ bases[m]? = some a ∧ bases[n]? = some b := by
  rw [getAllRNA_eq_variants] at hu hw
  obtain ⟨hi, hui⟩ := List.getElem?_eq_some_iff.1 hu
  obtain ⟨hj, hwj⟩ := List.getElem?_eq_some_iff.1 hw
  have hpair := List.pairwise_iff_getElem.1 (variants_pairwise t ht) i j hi hj hij
  rw [hui, hwj] at hpair
  obtain ⟨p, c, bases, a, b, m, n, hpre, htp, hl, hup, hwp, hmn, hm, hn, hab⟩ := hpair
  refine ⟨?_, p, c, bases, a, b, m, n, hpre, htp, hl, hup, hwp, hab, hmn, hm, hn⟩
  intro heq
  rw [heq, hwp] at hup
  exact hab (Option.some.inj hup).symm

theorem getAllRNA_strictly_ordered_witness :
    (∀ c ∈ ['R', 'Y'], (List.lookup c AmbiguousBasesRNA).isSome) ∧
      (getAllRNA ['R', 'Y'])[1]? = some ['A', 'U'] ∧
      (getAllRNA ['R', 'Y'])[2]? = some ['G', 'C'] ∧
      ['A', 'U'] ≠ ['G', 'C'] :=
  have hu : (getAllRNA ['R', 'Y'])[1]? = some ['A', 'U'] := by
    rw [getAllRNA_eq_variants]; decide
  have hw : (getAllRNA ['R', 'Y'])[2]? = some ['G', 'C'] := by
    rw [getAllRNA_eq_variants]; decide
  ⟨by decide, hu, hw,
    (getAllRNA_strictly_ordered ['R', 'Y'] (by decide) 1 2 (by decide) _ _ hu hw).1⟩

/-- C13: backtracking frame.  For every `rna`, buffer `current`, index at most
`|rna|` and list `results`, the call `generateAllRNA rna current index results`
returns with `current` as it was at entry and with `results` as it was at entry
followed by the new variants, each of which has the entry value of `current` as
a prefix. -/
theorem generateAllRNA_frame (rna current : List Char) (index : Nat)
    (h : index ≤ rna.length) (results : List (List Char)) :
    (generateAllRNA rna current index h results).1 = current ∧
      ∃ added : List (List Char),
        (generateAllRNA rna current index h results).2 = results ++ added ∧
        ∀ v ∈ added, current <+: v := by
  rw [generateAllRNA_eq rna (rna.length - index) index h rfl current results]
  refine ⟨rfl, _, rfl, ?_⟩
  intro v hv
  obtain ⟨x, _, rfl⟩ := List.mem_map.1 hv
  exact ⟨x, rfl⟩

theorem generateAllRNA_frame_witness :
    ∃ h : 1 ≤ ['A', 'R'].length,
      (generateAllRNA ['A', 'R'] ['A'] 1 h [['x']]).1 = ['A'] ∧
        ∃ added : List (List Char),
          (generateAllRNA ['A', 'R'] ['A'] 1 h [['x']]).2 = [['x']] ++ added ∧
          ∀ v ∈ added, ['A'] <+: v :=
  ⟨by decide, generateAllRNA_frame ['A', 'R'] ['A'] 1 (by decide) [['x']]⟩

/-! Claims C14 to C17 -/

/-- C14: sequence extraction.  `extractDNA content` is the characters of all
lines after the first line, in order, with every whitespace character removed
and every remaining character upper-cased; so it holds no whitespace and no
lowercase letter, and it is empty when the content has no line after the
first. -/
theorem extractDNA_spec (content : List Char) :
    extractDNA content =
        (((content.splitOn '\n').tail.flatten).filter (fun c => !isspace c)).map toupper ∧
      (∀ c ∈ extractDNA content, isspace c = false ∧ c.isLower = false) ∧
      ((content.splitOn '\n').tail = [] → extractDNA content = []) := by
  have heq : extractDNA content =
      (((content.splitOn '\n').tail.flatten).filter (fun c => !isspace c)).map toupper := by
    rw [extractDNA_eq, lines_after_first]
  refine ⟨heq, ?_, ?_⟩
  · intro c hc
    rw [heq] at hc
    obtain ⟨d, hd, rfl⟩ := List.mem_map.1 hc
    have hns : isspace d = false := by simpa using (List.mem_filter.1 hd).2
    exact toupper_class d hns
  · intro hnone
    rw [heq, hnone]
    rfl

theorem extractDNA_spec_witness :
    (['>', 'h', '\n', 'a', ' ', 'N', '\n', 'g'].splitOn '\n').tail = [['a', ' ', 'N'], ['g']] ∧
      extractDNA ['>', 'h', '\n', 'a', ' ', 'N', '\n', 'g'] = ['A', 'N', 'G'] ∧
      ((['>', 'h'].splitOn '\n').tail = [] ∧ extractDNA ['>', 'h'] = []) :=
  ⟨by decide,
    (extractDNA_spec ['>', 'h', '\n', 'a', ' ', 'N', '\n', 'g']).1.trans (by decide),
    by decide, (extractDNA_spec ['>', 'h']).2.2 (by decide)⟩

/-- C15: the code misses the claim.  The content `" >x"` is not empty and its
first character is a space, not '>', yet `getFastaDescription` raises no error
and returns `"x"`: the formatted read `stream >> firstChar` skips the leading
whitespace.  On `"\n >id\nA"` it likewise returns `"id"`, while `extractDNA`
takes the empty first line as the header and returns `">IDA"`.  On the
whitespace-only content `"\n"` the read stores nothing and the comparison reads
the uninitialised `firstChar`, so the code defines no result. -/
theorem getFastaDescription_leading_space :
    [' ', '>', 'x'] ≠ [] ∧ [' ', '>', 'x'].head? = some ' ' ∧ ' ' ≠ '>' ∧
      getFastaDescription [' ', '>', 'x'] = some (Except.ok ['x']) ∧
      getFastaDescription ['\n', ' ', '>', 'i', 'd', '\n', 'A'] = some (Except.ok ['i', 'd']) ∧
      extractDNA ['\n', ' ', '>', 'i', 'd', '\n', 'A'] = ['>', 'I', 'D', 'A'] ∧
      getFastaDescription ['\n'] = none :=
  ⟨by decide, by decide, by decide, rfl, rfl, by rw [extractDNA_eq]; decide, rfl⟩

/-- C16: strand duality.  With `comp` swapping A with U and C with G, for every
`dna` over {A,T,C,G,R,Y,S,W,K,M,B,D,H,V,N} the template-strand expansion is a
permutation of the coding-strand expansion with `comp` applied to every base of
every variant; both strands give the same number of variants. -/
theorem strand_duality (dna : List Char)
    (hdna : ∀ c ∈ dna,
      c ∈ ['A', 'T', 'C', 'G', 'R', 'Y', 'S', 'W', 'K', 'M', 'B', 'D', 'H', 'V', 'N']) :
    (getAllRNA (dnaToRna dna StrandLogic.TemplateStrand)).Perm
        ((getAllRNA (dnaToRna dna StrandLogic.CodingStrand)).map (List.map comp)) ∧
      (getAllRNA (dnaToRna dna StrandLogic.TemplateStrand)).length =
        (getAllRNA (dnaToRna dna StrandLogic.CodingStrand)).length := by
  have hperm : (getAllRNA (dnaToRna dna StrandLogic.TemplateStrand)).Perm
      ((getAllRNA (dnaToRna dna StrandLogic.CodingStrand)).map (List.map comp)) := by
    rw [getAllRNA_eq_variants, getAllRNA_eq_variants, dnaToRna_template, dnaToRna_coding]
    exact variants_strand_dual dna hdna
  refine ⟨hperm, ?_⟩
  rw [hperm.length_eq, List.length_map]

theorem strand_duality_witness :
    (∀ c ∈ ['T', 'R'],
      c ∈ ['A', 'T', 'C', 'G', 'R', 'Y', 'S', 'W', 'K', 'M', 'B', 'D', 'H', 'V', 'N']) ∧
      ((getAllRNA (dnaToRna ['T', 'R'] StrandLogic.TemplateStrand)).Perm
          ((getAllRNA (dnaToRna ['T', 'R'] StrandLogic.CodingStrand)).map (List.map comp)) ∧
        (getAllRNA (dnaToRna ['T', 'R'] StrandLogic.TemplateStrand)).length =
          (getAllRNA (dnaToRna ['T', 'R'] StrandLogic.CodingStrand)).length) :=
  ⟨by decide, strand_duality ['T', 'R'] (by decide)⟩

/-- C17: general cardinality.  For every string `t` over arbitrary characters,
the number of variants in `getAllRNA t` is the product over the positions of
`n(t[i])`, with `n(c)` the size of `AmbiguousBasesRNA[c]` for a key and 1
otherwise; `getAllRNA t` is never empty; and a symbol that is not a key stands
unchanged at its position in every variant. -/
theorem getAllRNA_cardinality (t : List Char) :
    (getAllRNA t).length =
        (t.map (fun c => ((List.lookup c AmbiguousBasesRNA).map List.length).getD 1)).prod ∧
      getAllRNA t ≠ [] ∧
      ∀ v ∈ getAllRNA t, ∀ (i : Nat) (hi : i < t.length),
        List.lookup t[i] AmbiguousBasesRNA = none → v[i]? = some t[i] := by
  rw [getAllRNA_eq_variants]
  exact ⟨variants_length_general t, variants_ne_nil t, variants_unmapped_kept t⟩

theorem getAllRNA_cardinality_witness :
    (getAllRNA ['N', 'z', 'R']).length = 8 ∧
      ['U', 'z', 'G'] ∈ getAllRNA ['N', 'z', 'R'] ∧
      List.lookup 'z' AmbiguousBasesRNA = none ∧
      ['U', 'z', 'G'][1]? = some 'z' :=
  have hv : ['U', 'z', 'G'] ∈ getAllRNA ['N', 'z', 'R'] := by
    rw [getAllRNA_eq_variants]; decide
  ⟨(getAllRNA_cardinality ['N', 'z', 'R']).1.trans (by decide), hv, by decide,
    (getAllRNA_cardinality ['N', 'z', 'R']).2.2 _ hv 1 (by decide) (by decide)⟩

end DNAengine
